import Mathlib

/-!
Verification development for `pipeline_graph.py` (LastMinute.ai).

The file contains a shallow embedding of the pipeline source:

* Python strings are Lean `String`s; `str.strip()` / `str.lower()` and the
  two regular expressions of the source are modelled character by character
  (exact on the ASCII texts all concrete inputs below use).
* Dict-shaped records (`PipelineState`, beats, image steps) become Lean
  structures; `{**state, "k": v}` becomes a structure update.
* Wall-clock time is `ℚ`; `time.monotonic()` reads and `time.sleep` calls
  are made explicit as nonnegative rational parameters.
* The remote generation gateway, the HTTP image endpoint and the external
  `normalize_text` helper are collaborators outside the repository: their
  responses enter the definitions as explicit parameters, universally
  quantified in every theorem.
* Fallible paths are `Option`/`Except` valued.

Definitions come first, theorems afterwards.
-/

namespace PipelineGraph

set_option maxRecDepth 8000

/-! ## Python string primitives -/

/-- Whitespace recognised by Python `str.strip()` and by `\s` of the `re`
module, restricted to the ASCII range (the only range exercised by the
pipeline's concrete texts). -/
def isPySpace (c : Char) : Bool :=
  c = ' ' || c = '\t' || c = '\n' || c = '\r' || c = '\x0b' || c = '\x0c'

/-- Python `str.strip()`: drop whitespace from both ends of the string. -/
def pyStrip (s : String) : String :=
  String.mk (((s.data.dropWhile isPySpace).reverse.dropWhile isPySpace).reverse)

/-- Python `str.lower()` (ASCII letters; the source lowercases concept
strings before comparing them with its ASCII stop-word set). -/
def pyLower (s : String) : String :=
  String.mk (s.data.map Char.toLower)

/-! ## Stage `chunk_text` (source lines 165-188) -/

/-- The sentence-terminal punctuation class `[.!?]` of the split regex in
`chunk_text`. -/
def isSentenceEnd (c : Char) : Bool :=
  c = '.' || c = '!' || c = '?'

/-- Model of `re.split(r"(?<=[.!?])\s+", text)`: the text is cut at every
maximal whitespace run whose immediately preceding character is `.`, `!` or
`?`; the whitespace run itself is consumed.  `acc` holds the piece being
built, in reverse order; `inBreak` records that the scanner is inside the
whitespace run of a split (so further whitespace is still consumed). -/
def splitSentencesAux (inBreak : Bool) (acc : List Char) : List Char → List (List Char)
  | [] => [acc.reverse]
  | c :: rest =>
    if inBreak then
      if isPySpace c then splitSentencesAux true [] rest
      else splitSentencesAux false [c] rest
    else if isPySpace c && (match acc with | p :: _ => isSentenceEnd p | [] => false) then
      acc.reverse :: splitSentencesAux true [] rest
    else
      splitSentencesAux false (c :: acc) rest

/-- The sentence list of `chunk_text`:
`[s.strip() for s in re.split(r"(?<=[.!?])\s+", text) if s.strip()]`. -/
def pySentences (text : String) : List String :=
  ((splitSentencesAux false [] text.data).map (fun cs => pyStrip (String.mk cs))).filter
    (fun s => s ≠ "")

/-- The greedy packing loop of `chunk_text` (bound `max_len = 350`),
including the final `if current: chunks.append(current)` flush. -/
def chunkLoop (current : String) (chunks : List String) : List String → List String
  | [] => if current ≠ "" then chunks ++ [current] else chunks
  | sentence :: rest =>
    let candidate := if current = "" then sentence else current ++ " " ++ sentence
    if candidate.length ≤ 350 then chunkLoop candidate chunks rest
    else chunkLoop sentence (if current ≠ "" then chunks ++ [current] else chunks) rest

/-- Stage `chunk_text`: the value stored under `state["chunks"]`. -/
def chunkText (text : String) : List String :=
  if text = "" then [] else chunkLoop "" [] (pySentences text)

/-! ## Stage `concept_extraction`: deterministic fallback (source lines 229-263)

The fallback tokenises with `re.findall(r"\b[a-z][a-z0-9]{2,}\b", text)`.
Because `\b` separates word characters `[A-Za-z0-9_]` from everything else,
a match is exactly a maximal word-character run that is entirely of the form
`[a-z][a-z0-9]{2,}`. -/

/-- Word characters of the regex word boundary `\b` (`[A-Za-z0-9_]`; exact on
ASCII text, and every token the pattern accepts is ASCII anyway). -/
def isWordChar (c : Char) : Bool :=
  c.isAlphanum || c = '_'

/-- Maximal runs of characters satisfying `p`; `cur` is the run being
collected, in reverse order. -/
def charRunsAux (p : Char → Bool) (cur : List Char) : List Char → List (List Char)
  | [] => if cur.isEmpty then [] else [cur.reverse]
  | c :: rest =>
    if p c then charRunsAux p (c :: cur) rest
    else if cur.isEmpty then charRunsAux p [] rest
    else cur.reverse :: charRunsAux p [] rest

/-- Maximal runs of characters satisfying `p` in a character list. -/
def charRuns (p : Char → Bool) (cs : List Char) : List (List Char) :=
  charRunsAux p [] cs

/-- The character class `[a-z]`. -/
def isLowerAZ (c : Char) : Bool :=
  'a' ≤ c && c ≤ 'z'

/-- The character class `[a-z0-9]`. -/
def isLowerDigit (c : Char) : Bool :=
  isLowerAZ c || c.isDigit

/-- Whether a word run matches `[a-z][a-z0-9]{2,}` in full. -/
def conceptTokenOk (run : List Char) : Bool :=
  match run with
  | [] => false
  | c :: rest => isLowerAZ c && rest.all isLowerDigit && run.length ≥ 3

/-- Model of `re.findall(r"\b[a-z][a-z0-9]{2,}\b", text)`: the maximal word
runs of the text that match the pattern in full, in text order. -/
def findConceptTokens (text : String) : List String :=
  ((charRuns isWordChar text.data).filter conceptTokenOk).map String.mk

/-- The fixed stop-word set of `concept_extraction`. -/
def conceptStopwords : List String :=
  ["the", "and", "for", "with", "from", "that", "this", "are", "was", "were",
   "have", "has", "not", "you", "your", "into", "about", "can", "will",
   "they", "their", "then", "than", "also", "but", "all"]

/-- One `Counter` update: bump the entry for `w` if present, otherwise append
`(w, 1)` (dict insertion order is first-occurrence order). -/
def counterAdd (items : List (String × Nat)) (w : String) : List (String × Nat) :=
  if items.any (fun p => p.1 = w) then
    items.map (fun p => if p.1 = w then (p.1, p.2 + 1) else p)
  else items ++ [(w, 1)]

/-- `collections.Counter(ws)` as an insertion-ordered association list. -/
def counterItems (ws : List String) : List (String × Nat) :=
  ws.foldl counterAdd []

/-- Stable descending insertion: `x` goes after every earlier entry whose
count is at least `x`'s count. -/
def insertByCount (x : String × Nat) : List (String × Nat) → List (String × Nat)
  | [] => [x]
  | y :: ys => if x.2 ≤ y.2 then y :: insertByCount x ys else x :: y :: ys

/-- Stable sort by count, descending.  This is the documented semantics of
`Counter.most_common`: `sorted(items, key=count, reverse=True)` with the
stable `sorted`, so ties keep dict insertion order. -/
def sortByCountDesc (items : List (String × Nat)) : List (String × Nat) :=
  items.foldl (fun acc x => insertByCount x acc) []

/-- `Counter.most_common(n)`. -/
def mostCommon (items : List (String × Nat)) (n : Nat) : List (String × Nat) :=
  (sortByCountDesc items).take n

/-- The deterministic fallback branch of `concept_extraction`: tokenise,
drop stop words, rank by `Counter.most_common(12)`, and fall back to the
fixed 3-item placeholder list when nothing survives. -/
def conceptsFallback (text : String) : List String :=
  let words := findConceptTokens text
  let filtered := words.filter (fun w => ¬ w ∈ conceptStopwords)
  let concepts := (mostCommon (counterItems filtered) 12).map Prod.fst
  if concepts = [] then ["core-topic", "key-idea", "review-focus"] else concepts

/-! ### Spec-side definitions for claim C9

These two definitions follow the wording of the specification, not the
source: "tokenize cleaned text into lowercase alphabetic tokens of length
≥ 3, remove a fixed stop-word set, rank by descending frequency with ties
broken by first occurrence order, take the top 12; if still empty, emit a
fixed 3-item placeholder concept list". -/

/-- First-occurrence deduplication of a token list. -/
def firstOccurAux (seen : List String) : List String → List String
  | [] => []
  | w :: ws =>
    if w ∈ seen then firstOccurAux seen ws
    else w :: firstOccurAux (w :: seen) ws

/-- Number of occurrences of `w` in a token list. -/
def countOcc (w : String) : List String → Nat
  | [] => 0
  | x :: rest => (if x = w then 1 else 0) + countOcc w rest

/-- Spec wording: rank tokens by descending frequency, ties broken by first
occurrence order. -/
def rankByFreq (toks : List String) : List String :=
  (sortByCountDesc ((firstOccurAux [] toks).map (fun w => (w, countOcc w toks)))).map Prod.fst

/-- Spec wording applied to an arbitrary tokenisation: remove stop words,
rank, truncate to the top 12, placeholder when empty. -/
def conceptsSpecOf (tokens : List String) : List String :=
  let filtered := tokens.filter (fun w => ¬ w ∈ conceptStopwords)
  let ranked := (rankByFreq filtered).take 12
  if ranked = [] then ["core-topic", "key-idea", "review-focus"] else ranked

/-- Taken literally from the spec words for C9: tokens are the *alphabetic*
maximal runs that are all lowercase and of length at least 3. -/
def specAlphaTokens (text : String) : List String :=
  ((charRuns (fun c => c.isAlpha) text.data).filter
    (fun run => run.all isLowerAZ && run.length ≥ 3)).map String.mk

/-- The C9 claim read literally (alphabetic tokens). -/
def conceptsFallbackSpecLiteral (text : String) : List String :=
  conceptsSpecOf (specAlphaTokens text)

/-- The C9 claim with the amended tokeniser: tokens start with a lowercase
letter and continue with lowercase letters or digits (length ≥ 3), exactly
the tokens of the source regex. -/
def conceptsFallbackSpecAmended (text : String) : List String :=
  conceptsSpecOf (findConceptTokens text)

/-! ## The image rate limiter (source lines 439-445, 479-486)

`_generate_image` serialises every outbound call through `_IMG_LOCK`.  Under
the lock a worker reads `time.monotonic()`, sleeps when the gap since
`_IMG_LAST_CALL` is below `_IMG_MIN_INTERVAL`, and re-reads the clock into
`_IMG_LAST_CALL` before releasing the lock.  Because the lock serialises the
critical sections and the clock is monotonic, a worker's first clock read is
at least the previously recorded timestamp; `arrival` is that (nonnegative)
gap.  `time.sleep(w)` suspends for at least `w`; `overshoot` is the extra
time between the requested wake-up and the second clock read. -/

/-- `_IMG_MIN_INTERVAL = 4.0` seconds. -/
def imgMinInterval : ℚ := 4

/-- `_IMG_MAX_RETRIES = 4`. -/
def imgMaxRetries : Nat := 4

/-- `_IMG_BASE_BACKOFF = 5.0` seconds. -/
def imgBaseBackoff : ℚ := 5

/-- The scheduling data of one pass through the rate-limiter critical
section (both fields are nonnegative for a monotonic clock and a faithful
`sleep`; the theorems assume exactly that). -/
structure LimiterStep where
  arrival : ℚ
  overshoot : ℚ

/-- The critical section of `_generate_image`: given the previously recorded
`_IMG_LAST_CALL` value, compute the timestamp this pass records. -/
def limiterRecord (last : ℚ) (s : LimiterStep) : ℚ :=
  let now := last + s.arrival
  let wait := imgMinInterval - (now - last)
  let slept := if 0 < wait then wait else 0
  now + slept + s.overshoot

/-- The sequence of `_IMG_LAST_CALL` values recorded by consecutive passes
through the critical section (lock order). -/
def limiterTimes (last : ℚ) : List LimiterStep → List ℚ
  | [] => []
  | s :: rest => limiterRecord last s :: limiterTimes (limiterRecord last s) rest

/-! ## The retrying image call `_generate_image` (source lines 448-525) -/

/-- The `inlineData` object of one part of a Gemini response:
`mimeType` (defaulted to `image/png` when missing) and base64 `data`. -/
structure InlineImg where
  mimeType : Option String
  data : String
deriving DecidableEq

/-- One observed outcome of `requests.post`: either a response with its
status code and decoded candidate/part structure, or a raised exception. -/
inductive HttpOutcome where
  | resp (status : Nat) (candidates : List (List (Option InlineImg)))
  | exc
deriving DecidableEq

/-- The statuses `(429, 500, 502, 503)` that `_generate_image` retries. -/
def transientStatus (s : Nat) : Bool :=
  s = 429 || s = 500 || s = 502 || s = 503

/-- The part scan of the 200 branch: first part whose `inlineData` carries
nonempty `data` becomes a data URL. -/
def extractInlineImage : List (Option InlineImg) → Option String
  | [] => none
  | none :: rest => extractInlineImage rest
  | some inl :: rest =>
    if inl.data ≠ "" then
      some ("data:" ++ inl.mimeType.getD "image/png" ++ ";base64," ++ inl.data)
    else extractInlineImage rest

/-- The observable run of `_generate_image`: final return value, number of
HTTP attempts issued, and the backoff sleeps performed (in order). -/
structure ImgRun where
  result : Option String
  attempts : Nat
  backoffSleeps : List ℚ
deriving DecidableEq

/-- `_IMG_BASE_BACKOFF * (2 ** attempt)`. -/
def imgBackoff (attempt : Nat) : ℚ :=
  imgBaseBackoff * 2 ^ attempt

/-- The retry loop `for attempt in range(_IMG_MAX_RETRIES)` of
`_generate_image`.  `responses attempt` is the outcome of the HTTP call of
that attempt; `fuel` is the number of remaining loop iterations (at every
call site `attempt + fuel = _IMG_MAX_RETRIES`), and exhausting the loop
returns `None`. -/
def genImgLoop (responses : Nat → HttpOutcome) (attempt : Nat) : Nat → ImgRun
  | 0 => ⟨none, 0, []⟩
  | fuel + 1 =>
    match responses attempt with
    | .resp status candidates =>
      if transientStatus status then
        let rest := genImgLoop responses (attempt + 1) fuel
        ⟨rest.result, rest.attempts + 1, imgBackoff attempt :: rest.backoffSleeps⟩
      else if status ≠ 200 then ⟨none, 1, []⟩
      else
        match candidates with
        | [] => ⟨none, 1, []⟩
        | parts :: _ => ⟨extractInlineImage parts, 1, []⟩
    | .exc =>
      if attempt < imgMaxRetries - 1 then
        let rest := genImgLoop responses (attempt + 1) fuel
        ⟨rest.result, rest.attempts + 1, imgBackoff attempt :: rest.backoffSleeps⟩
      else ⟨none, 1, []⟩

/-- `_generate_image`: `hasKey` is whether `_get_api_key()` found a key
(without one the function returns `None` before any attempt). -/
def generateImage (hasKey : Bool) (responses : Nat → HttpOutcome) : ImgRun :=
  if hasKey then genImgLoop responses 0 imgMaxRetries else ⟨none, 0, []⟩

/-- Whether an HTTP outcome is a response that `_generate_image` classifies
as transient (an exception is handled by the separate `except` path). -/
def isTransientResp : HttpOutcome → Bool
  | .resp st _ => transientStatus st
  | .exc => false

/-! ## Stage `generate_story_visuals` (source lines 528-678)

The decomposition reply of the gateway is a list of raw beats; `none` below
models a reply whose `"beats"` entry is missing or not a list.  The stage
normalises the first 6 beats (3 image steps each, truncated and padded),
builds one job per nonempty prompt, runs the jobs on a worker pool, and
merges every returned data URL into its `(beat, step)` slot. -/

/-- One raw `image_steps` entry of the gateway reply. -/
structure RawImageStep where
  step_label : String
  prompt : String
deriving DecidableEq

/-- One raw beat of the gateway reply. -/
structure RawBeat where
  label : String
  narrative : String
  is_decision : Bool
  choices : List String
  image_steps : List RawImageStep
deriving DecidableEq

/-- A normalised image step (`image_data` is empty until the scheduler
fills it). -/
structure ImageStep where
  step_label : String
  prompt : String
  image_data : String
deriving DecidableEq

/-- A normalised story beat. -/
structure Beat where
  label : String
  narrative : String
  is_decision : Bool
  choices : List String
  image_steps : List ImageStep
deriving DecidableEq

/-- The placeholder appended by `while len(image_steps) < 3`. -/
def emptyImageStep : ImageStep :=
  ⟨"", "", ""⟩

/-- Conversion of one raw step (`str(...).strip()` on both fields,
`image_data` initialised empty). -/
def mkImageStep (s : RawImageStep) : ImageStep :=
  ⟨pyStrip s.step_label, pyStrip s.prompt, ""⟩

/-- `raw_steps[:3]` conversion followed by the `while len(image_steps) < 3:
append placeholder` pad (the while loop appends exactly `3 - len` times). -/
def normalizeSteps (raw : List RawImageStep) : List ImageStep :=
  let taken := (raw.take 3).map mkImageStep
  taken ++ List.replicate (3 - taken.length) emptyImageStep

/-- Normalisation of one raw beat (strip label and narrative, keep the
nonempty stripped choices, normalise the steps). -/
def normalizeBeat (b : RawBeat) : Beat :=
  ⟨pyStrip b.label, pyStrip b.narrative, b.is_decision,
   (b.choices.map pyStrip).filter (fun c => c ≠ ""), normalizeSteps b.image_steps⟩

/-- `for b in beats_raw[:6]` over the normalisation. -/
def normalizeBeats (raw : List RawBeat) : List Beat :=
  (raw.take 6).map normalizeBeat

/-- A job `(beat_index, step_index, prompt)`. -/
abbrev Job := Nat × Nat × String

/-- The inner loop of the job builder: `for si, step in
enumerate(beat["image_steps"]): if step["prompt"]: jobs.append(...)`. -/
def stepJobs (bi : Nat) : List ImageStep → Nat → List Job
  | [], _ => []
  | s :: rest, si =>
    if s.prompt = "" then stepJobs bi rest (si + 1)
    else (bi, si, s.prompt) :: stepJobs bi rest (si + 1)

/-- The outer loop of the job builder: `for bi, beat in enumerate(beats)`. -/
def beatJobs : List Beat → Nat → List Job
  | [], _ => []
  | b :: rest, bi => stepJobs bi b.image_steps 0 ++ beatJobs rest (bi + 1)

/-- The flat job list of `generate_story_visuals`. -/
def buildJobs (beats : List Beat) : List Job :=
  beatJobs beats 0

/-- Positional update of a list; `beats[bi][...] = ...` on an index that is
in range rewrites that slot, anything else leaves the list unchanged. -/
def listModify {α : Type} : List α → Nat → (α → α) → List α
  | [], _, _ => []
  | x :: xs, 0, f => f x :: xs
  | x :: xs, n + 1, f => x :: listModify xs n f

/-- The merge of one completed job:
`if img: beats[bi]["image_steps"][si]["image_data"] = img` (a `None` or
empty result leaves the structure untouched). -/
def mergeResult (beats : List Beat) (bi si : Nat) (img : Option String) : List Beat :=
  match img with
  | some d =>
    if d ≠ "" then
      listModify beats bi (fun b =>
        { b with image_steps := listModify b.image_steps si (fun s => { s with image_data := d }) })
    else beats
  | none => beats

/-- Folding a list of completion events into the beat structure.  `outcome
bi si prompt` is the value `_generate_image` returned for that job. -/
def runEvents (beats : List Beat) (evs : List Job)
    (outcome : Nat → Nat → String → Option String) : List Beat :=
  evs.foldl (fun acc j => mergeResult acc j.1 j.2.1 (outcome j.1 j.2.1 j.2.2)) beats

/-- The fan-out/fan-in of `generate_story_visuals`: submit every built job
and merge every terminal outcome.  The merge targets of distinct jobs are
distinct `(bi, si)` slots, so the event order (`as_completed` is
unconstrained) does not affect the result; the fold lists the events in
submission order. -/
def runScheduler (beats : List Beat)
    (outcome : Nat → Nat → String → Option String) : List Beat :=
  runEvents beats (buildJobs beats) outcome

/-- The `story_beats` value computed by the stage, all branches included:
empty story text, missing/non-list/empty `"beats"` reply, and the main
path. -/
def storyVisualsBeats (finalStorytelling : String) (beatsRaw : Option (List RawBeat))
    (outcome : Nat → Nat → String → Option String) : List Beat :=
  if finalStorytelling = "" then []
  else
    match beatsRaw with
    | none => []
    | some [] => []
    | some raw => runScheduler (normalizeBeats raw) outcome

/-- Slot access used by the scheduler theorems. -/
def getSlot (beats : List Beat) (bi si : Nat) : Option ImageStep :=
  match beats.get? bi with
  | some b => b.image_steps.get? si
  | none => none

/-- Effect of one job outcome on its own slot. -/
def mergeOne (s : ImageStep) (img : Option String) : ImageStep :=
  match img with
  | some d => if d ≠ "" then { s with image_data := d } else s
  | none => s

/-- Effect of one job outcome on the step list of its beat. -/
def mergeStepList (cur : List ImageStep) (si : Nat) (img : Option String) : List ImageStep :=
  match img with
  | some d =>
    if d ≠ "" then listModify cur si (fun s => { s with image_data := d })
    else cur
  | none => cur

/-- Accumulated effect of the events of one beat on its step list: walk the
original steps (`src`), merging the outcome of every nonempty prompt. -/
def stepsApply (outcome : Nat → Nat → String → Option String) (bi : Nat)
    (cur : List ImageStep) : List ImageStep → Nat → List ImageStep
  | [], _ => cur
  | s :: rest, si =>
    stepsApply outcome bi
      (if s.prompt = "" then cur else mergeStepList cur si (outcome bi si s.prompt)) rest (si + 1)

/-- Accumulated effect of all events on the beat list: walk the original
beats (`src`), applying each beat's step events at its index. -/
def beatsApply (outcome : Nat → Nat → String → Option String) :
    List Beat → List Beat → Nat → List Beat
  | bs, [], _ => bs
  | bs, b :: rest, off =>
    beatsApply outcome
      (listModify bs off (fun cur =>
        { cur with image_steps := stepsApply outcome off cur.image_steps b.image_steps 0 }))
      rest (off + 1)

/-! ## The pipeline engine (source lines 681-730 and 748-791)

`build_graph` wires the ten stages into a linear chain
(`store_raw_files → ... → generate_story_visuals → END`) and compiles it;
`invoke` therefore runs the stages in that order, merging each stage's full
returned state.  Neither `build_graph` nor `run_pipeline` installs any
error handler, so a stage fault propagates out of `invoke` to the caller
(the default behaviour of the graph runtime the source delegates to). -/

/-- `PIPELINE_GRAPH.invoke` on the linear chain, for total stages. -/
def invokeGraph {σ : Type} (stages : List (σ → σ)) (s : σ) : σ :=
  stages.foldl (fun acc f => f acc) s

/-- The engine over possibly-raising stages: a raising stage short-circuits
the run and its fault reaches the caller unchanged. -/
def invokeGraphE {σ ε : Type} (stages : List (σ → Except ε σ)) (s : σ) : Except ε σ :=
  stages.foldl (fun acc f => acc.bind f) (Except.ok s)

/-- A total stage viewed as a never-raising stage. -/
def liftStage {σ ε : Type} (f : σ → σ) : σ → Except ε σ :=
  fun s => Except.ok (f s)

/-! ## The shared pipeline state and the ten stage functions -/

/-- The `scenario_seed` record (the field holds `none` while the state still
has the initial empty dict). -/
structure ScenarioSeed where
  focus : String
  secondary : List String
  mode : String
deriving DecidableEq

/-- The `interactive_story` record. -/
structure Story where
  title : String
  opening : String
  checkpoint : String
  boss_level : String
deriving DecidableEq

/-- The `learning_event` record. -/
structure LearningEvent where
  title : String
  format : String
  tasks : List String
  concepts : List String
  interactive_story : Story
  final_storytelling : String
deriving DecidableEq

/-- `PipelineState`.  Dict-valued fields that start as the empty dict are
`Option`s (`none` = `{}`); `story_beats` is an `Option` because the initial
state of `run_pipeline_with_trace` omits that key entirely, while
`run_pipeline` initialises it to `[]`. -/
structure PipeState where
  raw_files : List String
  extracted_text : String
  cleaned_text : String
  chunks : List String
  concepts : List String
  normalized_concepts : List String
  priority_concepts : List String
  scenario_seed : Option ScenarioSeed
  learning_event : Option LearningEvent
  todo_checklist : List String
  interactive_story : Option Story
  final_storytelling : String
  story_beats : Option (List Beat)
  llm_used : Bool
  llm_status : String
deriving DecidableEq

/-- Stage `store_raw_files`. -/
def store_raw_files (s : PipeState) : PipeState :=
  { s with raw_files := s.raw_files.map (fun n => "stored::" ++ n) }

/-- Stage `extract_text`. -/
def extract_text (s : PipeState) : PipeState :=
  let existing := pyStrip s.extracted_text
  if existing ≠ "" then { s with extracted_text := existing }
  else
    let combined :=
      String.intercalate "\n" (s.raw_files.map (fun n => "dummy extracted text from " ++ n))
    { s with extracted_text := if combined = "" then "dummy extracted text." else combined }

/-- Stage `clean_text`; `normalizeText` is the external
`agents.preprocessing.text_normalizer.normalize_text`, passed in as a
parameter. -/
def clean_text (normalizeText : String → String) (s : PipeState) : PipeState :=
  { s with cleaned_text := normalizeText s.extracted_text }

/-- Stage `chunk_text`. -/
def chunk_text (s : PipeState) : PipeState :=
  { s with chunks := chunkText s.cleaned_text }

/-- The gateway reply to `concept_extraction`: the value under the
`"concepts"` key when it is a list (`none` when missing or not a list),
plus the status string of `_llm_json`. -/
structure ConceptsReply where
  concepts : Option (List String)
  status : String

/-- Stage `concept_extraction`: use the cleaned gateway concepts when any
survive, otherwise the deterministic fallback. -/
def concept_extraction (g : ConceptsReply) (s : PipeState) : PipeState :=
  match g.concepts with
  | some items =>
    let cleaned := (items.filter (fun i => pyStrip i ≠ "")).map (fun i => pyLower (pyStrip i))
    if cleaned ≠ [] then { s with concepts := cleaned, llm_used := true, llm_status := "ok" }
    else { s with concepts := conceptsFallback s.cleaned_text, llm_status := g.status }
  | none => { s with concepts := conceptsFallback s.cleaned_text, llm_status := g.status }

/-- The loop of `normalize_concepts`: lowercase, trim, keep nonempty
first occurrences. -/
def normConceptsAux (seen : List String) : List String → List String
  | [] => []
  | c :: rest =>
    let v := pyLower (pyStrip c)
    if v ≠ "" ∧ ¬ v ∈ seen then v :: normConceptsAux (v :: seen) rest
    else normConceptsAux seen rest

/-- Stage `normalize_concepts`. -/
def normalize_concepts (s : PipeState) : PipeState :=
  { s with normalized_concepts := normConceptsAux [] s.concepts }

/-- Stage `estimate_priority`: first 5 normalized concepts. -/
def estimate_priority (s : PipeState) : PipeState :=
  { s with priority_concepts := s.normalized_concepts.take 5 }

/-- Stage `select_scenario_seed`. -/
def select_scenario_seed (s : PipeState) : PipeState :=
  let seed : ScenarioSeed :=
    ⟨s.priority_concepts.headD "general review", s.priority_concepts.drop 1,
     "deterministic-placeholder"⟩
  { s with scenario_seed := some seed }

/-- The structured gateway reply to `generate_learning_event` (present keys
only; `.get` defaults are applied in the stage body). -/
structure EventResult where
  title : Option String
  storytelling : Option String
  checklist : List String
  opening : Option String
  checkpoint : Option String
  boss_level : Option String

/-- The gateway reply to `generate_learning_event`: `none` models the empty
dict (falsy `if llm_result:`), plus the status string. -/
structure EventReply where
  result : Option EventResult
  status : String

/-- Stage `generate_learning_event`, both the gateway path and the
deterministic fallback path. -/
def generate_learning_event (g : EventReply) (s : PipeState) : PipeState :=
  let focus := match s.scenario_seed with | some seed => seed.focus | none => "general review"
  let secondary := match s.scenario_seed with | some seed => seed.secondary | none => []
  let concepts := s.priority_concepts
  match g.result with
  | some r =>
    let title := pyStrip (r.title.getD ("LastMinute Mission: " ++ focus))
    let storytelling := pyStrip (r.storytelling.getD "")
    let checklist0 := (r.checklist.map pyStrip).filter (fun i => i ≠ "")
    let checklist :=
      if checklist0 = [] then
        ["Read and annotate the section around \x27" ++ focus ++ "\x27.",
         "Write three flashcards from the material.",
         "Solve one timed practice question.",
         "Summarize the topic from memory."]
      else checklist0
    let story : Story :=
      ⟨title, pyStrip (r.opening.getD ""), pyStrip (r.checkpoint.getD ""),
       pyStrip (r.boss_level.getD "")⟩
    let story_text :=
      if storytelling ≠ "" then storytelling
      else
        title ++ "\n\n" ++ "Act 1 - The Briefing:\n" ++ story.opening ++ "\n\n" ++
        "Act 2 - The Checkpoint:\n" ++ story.checkpoint ++ "\n\n" ++
        "Final Boss:\n" ++ story.boss_level ++ "\n\n" ++
        "Mission Checklist:\n- " ++ String.intercalate "\n- " checklist
    let event : LearningEvent :=
      ⟨pyLower title, "interactive-story", checklist, concepts, story, story_text⟩
    { s with learning_event := some event, todo_checklist := checklist,
             interactive_story := some story, final_storytelling := story_text,
             llm_used := true, llm_status := "ok" }
  | none =>
    let checklist0 :=
      ["Read and annotate the section around \x27" ++ focus ++ "\x27.",
       "Create 3 flashcards for \x27" ++ focus ++ "\x27 and key terms.",
       "Answer 5 quick self-test questions from the uploaded material.",
       "Write a 4-line summary from memory."]
    let checklist :=
      match secondary with
      | [] => checklist0
      | sec0 :: _ =>
        checklist0 ++ ["Link \x27" ++ focus ++ "\x27 with \x27" ++ sec0 ++ "\x27 in one example."]
    let story : Story :=
      ⟨"LastMinute Mission: " ++ focus,
       "You are 24 hours from the exam. Your mission starts with " ++ focus ++ ".",
       "Unlock the next checkpoint by solving one practice prompt.",
       "Teach the concept back in plain language without notes."⟩
    let concepts_text := if concepts = [] then "core ideas" else String.intercalate ", " concepts
    let story_text :=
      story.title ++ "\n\n" ++ "Act 1 - The Briefing:\n" ++ story.opening ++ "\n\n" ++
      "Act 2 - The Route:\n" ++
      "Your guide marks these concepts as critical: " ++ concepts_text ++ ".\n" ++
      "Every checkpoint you clear gives you more control of the final exam map.\n\n" ++
      "Act 3 - The Checkpoint:\n" ++ story.checkpoint ++ "\n\n" ++
      "Final Boss:\n" ++ story.boss_level ++ "\n\n" ++
      "Mission Checklist:\n- " ++ String.intercalate "\n- " checklist
    let event : LearningEvent :=
      ⟨"mission: " ++ focus, "guided practice", checklist, concepts, story, story_text⟩
    { s with learning_event := some event, todo_checklist := checklist,
             interactive_story := some story, final_storytelling := story_text,
             llm_status :=
               if g.status ≠ "" then g.status
               else if s.llm_status ≠ "" then s.llm_status else "fallback" }

/-- The gateway reply to the visual decomposition: the `"beats"` list when
present and a list, `none` otherwise (the stage discards the status). -/
structure BeatsReply where
  beats : Option (List RawBeat)

/-- Stage `generate_story_visuals`: decomposition, job fan-out and merge
(all gateway/HTTP behaviour is carried by `g` and `outcome`). -/
def generate_story_visuals (g : BeatsReply)
    (outcome : Nat → Nat → String → Option String) (s : PipeState) : PipeState :=
  { s with story_beats := some (storyVisualsBeats s.final_storytelling g.beats outcome) }

/-- The external behaviour of one whole run: the text normalizer and the
replies of the three gateway calls plus the per-job image outcomes.  Every
theorem quantifies over these. -/
structure RunParams where
  normalizeText : String → String
  conceptsReply : ConceptsReply
  eventReply : EventReply
  beatsReply : BeatsReply
  imageOutcome : Nat → Nat → String → Option String

/-- The stage list of `build_graph`, in edge order. -/
def pipelineStages (p : RunParams) : List (PipeState → PipeState) :=
  [store_raw_files, extract_text, clean_text p.normalizeText, chunk_text,
   concept_extraction p.conceptsReply, normalize_concepts, estimate_priority,
   select_scenario_seed, generate_learning_event p.eventReply,
   generate_story_visuals p.beatsReply p.imageOutcome]

/-- The initial state literal of `run_pipeline` (`story_beats` present,
initialised to `[]`). -/
def runPipelineInit (raw_files : List String) (extracted_text : String) : PipeState :=
  ⟨raw_files, extracted_text, "", [], [], [], [], none, none, [], none, "", some [], false, ""⟩

/-- The initial state literal of `run_pipeline_with_trace` (no
`story_beats` key). -/
def traceInit (raw_files : List String) (extracted_text : String) : PipeState :=
  ⟨raw_files, extracted_text, "", [], [], [], [], none, none, [], none, "", none, false, ""⟩

/-- `run_pipeline`. -/
def run_pipeline (p : RunParams) (raw_files : List String) (extracted_text : String) :
    PipeState :=
  invokeGraph (pipelineStages p) (runPipelineInit raw_files extracted_text)

/-! ## The trace of `run_pipeline_with_trace` -/

/-- A Python value as previewed by `_state_preview_value`. -/
inductive PVal where
  | str (v : String)
  | bool (v : Bool)
  | list (vs : List PVal)
  | dict (kvs : List (String × PVal))

mutual

/-- `_state_preview_value`: truncate long strings and long lists, preview
dicts recursively, and pass anything else through. -/
def previewVal : PVal → PVal
  | .str v =>
    if v.length ≤ 180 then .str v
    else .str (v.take 180 ++ "... (" ++ toString v.length ++ " chars)")
  | .bool v => .bool v
  | .list vs =>
    if vs.length ≤ 6 then .list vs
    else .list (vs.take 6 ++ [.str ("... (" ++ toString vs.length ++ " items total)")])
  | .dict kvs => .dict (previewKVs kvs)

/-- Recursive dict preview of `_state_preview_value`. -/
def previewKVs : List (String × PVal) → List (String × PVal)
  | [] => []
  | (k, v) :: rest => (k, previewVal v) :: previewKVs rest

end

/-- An image step as the dict the pipeline builds. -/
def stepToPVal (st : ImageStep) : PVal :=
  .dict [("step_label", .str st.step_label), ("prompt", .str st.prompt),
         ("image_data", .str st.image_data)]

/-- A beat as the dict the pipeline builds. -/
def beatToPVal (b : Beat) : PVal :=
  .dict [("label", .str b.label), ("narrative", .str b.narrative),
         ("is_decision", .bool b.is_decision),
         ("choices", .list (b.choices.map PVal.str)),
         ("image_steps", .list (b.image_steps.map stepToPVal))]

/-- The scenario seed as a dict (`none` = the initial empty dict). -/
def seedToPVal : Option ScenarioSeed → PVal
  | none => .dict []
  | some seed =>
    .dict [("focus", .str seed.focus), ("secondary", .list (seed.secondary.map PVal.str)),
           ("mode", .str seed.mode)]

/-- The interactive story as a dict. -/
def storyToPVal : Option Story → PVal
  | none => .dict []
  | some st =>
    .dict [("title", .str st.title), ("opening", .str st.opening),
           ("checkpoint", .str st.checkpoint), ("boss_level", .str st.boss_level)]

/-- The learning event as a dict. -/
def eventToPVal : Option LearningEvent → PVal
  | none => .dict []
  | some e =>
    .dict [("title", .str e.title), ("format", .str e.format),
           ("tasks", .list (e.tasks.map PVal.str)),
           ("concepts", .list (e.concepts.map PVal.str)),
           ("interactive_story", storyToPVal (some e.interactive_story)),
           ("final_storytelling", .str e.final_storytelling)]

/-- The state as the key/value list of the accumulated trace dict
(`story_beats` appears, last, only once a stage has produced it). -/
def stateKVs (s : PipeState) : List (String × PVal) :=
  [("raw_files", .list (s.raw_files.map PVal.str)),
   ("extracted_text", .str s.extracted_text),
   ("cleaned_text", .str s.cleaned_text),
   ("chunks", .list (s.chunks.map PVal.str)),
   ("concepts", .list (s.concepts.map PVal.str)),
   ("normalized_concepts", .list (s.normalized_concepts.map PVal.str)),
   ("priority_concepts", .list (s.priority_concepts.map PVal.str)),
   ("scenario_seed", seedToPVal s.scenario_seed),
   ("learning_event", eventToPVal s.learning_event),
   ("todo_checklist", .list (s.todo_checklist.map PVal.str)),
   ("interactive_story", storyToPVal s.interactive_story),
   ("final_storytelling", .str s.final_storytelling),
   ("llm_used", .bool s.llm_used),
   ("llm_status", .str s.llm_status)] ++
  (match s.story_beats with
   | some bs => [("story_beats", .list (bs.map beatToPVal))]
   | none => [])

/-- The key list of a state dict. -/
def stateKeys (s : PipeState) : List String :=
  (stateKVs s).map Prod.fst

/-- One trace record `{node, updated_fields, state_preview}`. -/
structure TraceEntry where
  node : String
  updated_fields : List String
  state_preview : List (String × PVal)

/-- The node names in edge order. -/
def stageNames : List String :=
  ["store_raw_files", "extract_text", "clean_text", "chunk_text", "concept_extraction",
   "normalize_concepts", "estimate_priority", "select_scenario_seed",
   "generate_learning_event", "generate_story_visuals"]

/-- The `stream(..., stream_mode="updates")` loop: every stage emits its
full returned state, which is merged into `current_state` and previewed. -/
def streamTrace : List (String × (PipeState → PipeState)) → PipeState → List TraceEntry
  | [], _ => []
  | (name, f) :: rest, s =>
    let s2 := f s
    ⟨name, stateKeys s2, (stateKVs s2).map (fun kv => (kv.1, previewVal kv.2))⟩ ::
      streamTrace rest s2

/-- `run_pipeline_with_trace`: build the trace from a streamed run, then
compute the returned state with a fresh `invoke` of the same graph on the
same initial state. -/
def run_pipeline_with_trace (p : RunParams) (raw_files : List String)
    (extracted_text : String) : PipeState × List TraceEntry :=
  let init := traceInit raw_files extracted_text
  let trace := streamTrace (stageNames.zip (pipelineStages p)) init
  let final := invokeGraph (pipelineStages p) init
  (final, trace)

/-! # Theorems -/

/-- Structure eta for strings. -/
theorem stringMk_data (s : String) : String.mk s.data = s := rfl

/-! ## Claim C8: chunking -/

/-- On text with no sentence-terminal punctuation the splitter never cuts. -/
theorem splitSentencesAux_no_end (cs : List Char) : ∀ acc : List Char,
    (∀ c ∈ cs, isSentenceEnd c = false) → (∀ c ∈ acc, isSentenceEnd c = false) →
    splitSentencesAux false acc cs = [acc.reverse ++ cs] := by
  induction cs with
  | nil => intro acc _ _; simp [splitSentencesAux]
  | cons c rest ih =>
    intro acc hcs hacc
    have hstep : splitSentencesAux false acc (c :: rest) = splitSentencesAux false (c :: acc) rest := by
      cases acc with
      | nil => simp [splitSentencesAux]
      | cons p ps =>
        have hp : isSentenceEnd p = false := hacc p (by simp)
        simp [splitSentencesAux, hp]
    rw [hstep, ih (c :: acc) (fun x hx => hcs x (List.mem_cons_of_mem _ hx))
        (fun x hx => by
          rcases List.mem_cons.mp hx with rfl | hx2
          · exact hcs x (by simp)
          · exact hacc x hx2)]
    simp

/-- On punctuation-free text the sentence list is the stripped text (or
nothing when only whitespace is left). -/
theorem pySentences_no_end (text : String)
    (h : ∀ c ∈ text.data, isSentenceEnd c = false) :
    pySentences text = if pyStrip text = "" then [] else [pyStrip text] := by
  unfold pySentences
  rw [splitSentencesAux_no_end text.data [] h (by simp)]
  by_cases hs : pyStrip text = "" <;>
    simp [stringMk_data, hs]

/-- A single surviving sentence becomes a single chunk, no matter its
length. -/
theorem chunkLoop_single (s : String) (hs : s ≠ "") : chunkLoop "" [] [s] = [s] := by
  by_cases h : s.length ≤ 350 <;> simp [chunkLoop, h, hs]

/-- Invariant of the packing loop: when every pending sentence, the current
chunk and every emitted chunk are within the bound, every final chunk is. -/
theorem chunkLoop_bound : ∀ (sents : List String) (current : String) (chunks : List String),
    current.length ≤ 350 → (∀ c ∈ chunks, c.length ≤ 350) →
    (∀ s ∈ sents, s.length ≤ 350) →
    ∀ c ∈ chunkLoop current chunks sents, c.length ≤ 350 := by
  intro sents
  induction sents with
  | nil =>
    intro current chunks hcur hch _ c hc
    by_cases h0 : current = ""
    · simp [chunkLoop, h0] at hc
      exact hch c hc
    · simp [chunkLoop, h0] at hc
      rcases hc with hc | rfl
      · exact hch c hc
      · exact hcur
  | cons s rest ih =>
    intro current chunks hcur hch hs c hc
    have hsent : s.length ≤ 350 := hs s (by simp)
    have hrest : ∀ x ∈ rest, x.length ≤ 350 := fun x hx => hs x (by simp [hx])
    simp only [chunkLoop] at hc
    by_cases hb : (if current = "" then s else current ++ " " ++ s).length ≤ 350
    · rw [if_pos hb] at hc
      exact ih _ chunks hb hch hrest c hc
    · rw [if_neg hb] at hc
      refine ih s _ hsent ?_ hrest c hc
      intro x hx
      by_cases hc0 : current = ""
      · simp [hc0] at hx
        exact hch x hx
      · simp [hc0] at hx
        rcases hx with hx | rfl
        · exact hch x hx
        · exact hcur

/-- Claim C8, counterexample to the claim as stated: a 1000-character input
with no sentence-terminal punctuation (1000 spaces) yields zero chunks, not
exactly one. -/
theorem chunking_counterexample :
    (String.mk (List.replicate 1000 ' ')).length = 1000 ∧
    (List.replicate 1000 ' ').all (fun c => ! isSentenceEnd c) = true ∧
    chunkText (String.mk (List.replicate 1000 ' ')) = [] := by
  refine ⟨by decide, by decide, by decide⟩

/-- Claim C8 (amended): chunking splits cleaned text into sentences on
sentence-terminal punctuation followed by whitespace and greedily packs
them into chunks of at most 350 characters.  (1) A punctuation-free input
with at least one non-whitespace character yields exactly one chunk (the
stripped text); the all-whitespace case is the amendment forced by the
counterexample.  (2) When every sentence is at most 350 characters long, no
output chunk exceeds 350 characters. -/
theorem chunking_amended :
    (∀ text : String, (∀ c ∈ text.data, isSentenceEnd c = false) → pyStrip text ≠ "" →
      chunkText text = [pyStrip text]) ∧
    (∀ text : String, (∀ s ∈ pySentences text, s.length ≤ 350) →
      ∀ c ∈ chunkText text, c.length ≤ 350) := by
  constructor
  · intro text hpunct hne
    have htext : text ≠ "" := by
      intro h
      rw [h] at hne
      exact hne rfl
    rw [chunkText, if_neg htext, pySentences_no_end text hpunct, if_neg hne]
    exact chunkLoop_single _ hne
  · intro text hsent c hc
    rw [chunkText] at hc
    by_cases h0 : text = ""
    · rw [if_pos h0] at hc
      simp at hc
    · rw [if_neg h0] at hc
      exact chunkLoop_bound (pySentences text) "" [] (by simp) (by simp) hsent c hc

/-- Witness for C8: the amended theorem evaluated at concrete inputs. -/
theorem chunking_amended_witness :
    chunkText "force equals mass times acceleration" =
      ["force equals mass times acceleration"] ∧
    ("Aa. Bb!" : String).length ≤ 350 := by
  constructor
  · have h := chunking_amended.1 "force equals mass times acceleration" (by decide) (by decide)
    rw [h]
    decide
  · exact chunking_amended.2 "Aa. Bb!" (by decide) "Aa. Bb!" (by decide)

/-! ## Claim C9: the concept-extraction fallback -/

/-- Occurrence counts distribute over append. -/
theorem countOcc_append (w : String) (a b : List String) :
    countOcc w (a ++ b) = countOcc w a + countOcc w b := by
  induction a with
  | nil => simp [countOcc]
  | cons x rest ih =>
    rw [List.cons_append]
    simp only [countOcc]
    rw [ih]
    omega

/-- Absent tokens have count zero. -/
theorem countOcc_eq_zero (w : String) (l : List String) (h : ¬ w ∈ l) :
    countOcc w l = 0 := by
  induction l with
  | nil => rfl
  | cons x rest ih =>
    rw [List.mem_cons, not_or] at h
    have hx : x ≠ w := fun he => h.1 he.symm
    simp [countOcc, hx, ih h.2]

/-- Membership in the first-occurrence deduplication. -/
theorem mem_firstOccurAux (x : String) : ∀ (l seen : List String),
    x ∈ firstOccurAux seen l ↔ x ∈ l ∧ ¬ x ∈ seen := by
  intro l
  induction l with
  | nil => intro seen; simp [firstOccurAux]
  | cons w ws ih =>
    intro seen
    by_cases hw : w ∈ seen
    · rw [firstOccurAux, if_pos hw, ih seen]
      constructor
      · rintro ⟨hx, hs⟩
        exact ⟨List.mem_cons_of_mem _ hx, hs⟩
      · rintro ⟨hx, hs⟩
        rcases List.mem_cons.mp hx with rfl | hx2
        · exact absurd hw hs
        · exact ⟨hx2, hs⟩
    · rw [firstOccurAux, if_neg hw]
      constructor
      · intro hx
        rcases List.mem_cons.mp hx with rfl | hx2
        · exact ⟨by simp, hw⟩
        · have h2 := (ih (w :: seen)).mp hx2
          refine ⟨List.mem_cons_of_mem _ h2.1, fun hs => h2.2 (List.mem_cons_of_mem _ hs)⟩
      · rintro ⟨hx, hs⟩
        rcases List.mem_cons.mp hx with rfl | hx2
        · exact List.mem_cons_self _ _
        · by_cases hxw : x = w
          · subst hxw
            exact List.mem_cons_self _ _
          · refine List.mem_cons_of_mem _ ((ih (w :: seen)).mpr ⟨hx2, fun hxs => ?_⟩)
            rcases List.mem_cons.mp hxs with h1 | h2
            · exact hxw h1
            · exact hs h2

/-- Appending one token extends the deduplicated list by that token exactly
when it is new. -/
theorem firstOccurAux_append (w : String) : ∀ (l seen : List String),
    firstOccurAux seen (l ++ [w]) =
      firstOccurAux seen l ++ (if w ∈ seen ∨ w ∈ l then [] else [w]) := by
  intro l
  induction l with
  | nil =>
    intro seen
    by_cases hw : w ∈ seen <;> simp [firstOccurAux, hw]
  | cons x xs ih =>
    intro seen
    by_cases hx : x ∈ seen
    · rw [List.cons_append, firstOccurAux, if_pos hx, firstOccurAux, if_pos hx, ih]
      have hiff : (w ∈ seen ∨ w ∈ xs) ↔ (w ∈ seen ∨ w ∈ x :: xs) := by
        simp only [List.mem_cons]
        constructor
        · tauto
        · rintro (h | rfl | h)
          · tauto
          · exact Or.inl hx
          · tauto
      simp only [hiff]
    · rw [List.cons_append, firstOccurAux, if_neg hx, firstOccurAux, if_neg hx, ih,
        List.cons_append]
      have hiff : (w ∈ x :: seen ∨ w ∈ xs) ↔ (w ∈ seen ∨ w ∈ x :: xs) := by
        simp only [List.mem_cons]
        tauto
      simp only [hiff]

/-- The key test of `counterAdd` over an association list built from a key
list. -/
theorem anyKey_map (keys : List String) (g : String → Nat) (w : String) :
    ((keys.map (fun k => (k, g k))).any (fun p => p.1 = w)) = true ↔ w ∈ keys := by
  rw [List.any_eq_true]
  constructor
  · rintro ⟨p, hp, he⟩
    obtain ⟨k, hk, rfl⟩ := List.mem_map.mp hp
    simp only [decide_eq_true_eq] at he
    exact he ▸ hk
  · intro hw
    exact ⟨(w, g w), List.mem_map.mpr ⟨w, hw, rfl⟩, by simp⟩

/-- The incrementally built `Counter` association list equals the
first-occurrence key list paired with total occurrence counts. -/
theorem counterItems_eq (l : List String) :
    counterItems l = (firstOccurAux [] l).map (fun w => (w, countOcc w l)) := by
  induction l using List.reverseRecOn with
  | nil => rfl
  | append_singleton l w ih =>
    have hfold : counterItems (l ++ [w]) = counterAdd (counterItems l) w := by
      simp [counterItems, List.foldl_append]
    rw [hfold, ih, firstOccurAux_append]
    by_cases hw : w ∈ l
    · have hany :
          ((firstOccurAux [] l).map (fun k => (k, countOcc k l))).any (fun p => p.1 = w) = true := by
        rw [anyKey_map]
        simp [mem_firstOccurAux, hw]
      rw [counterAdd, if_pos hany, if_pos (Or.inr hw), List.append_nil, List.map_map]

      refine List.map_congr_left ?_
      intro k hk
      simp only [Function.comp_apply]
      by_cases hkw : k = w
      · subst hkw
        simp [countOcc_append, countOcc]
      · have hwk : w ≠ k := fun he => hkw he.symm
        simp [hkw, countOcc_append, countOcc, hwk]
    · have hany :
          ¬ ((firstOccurAux [] l).map (fun k => (k, countOcc k l))).any (fun p => p.1 = w) = true := by
        rw [anyKey_map]
        simp [mem_firstOccurAux, hw]
      rw [counterAdd, if_neg hany, if_neg (by simp [hw]), List.map_append]
      congr 1
      · refine List.map_congr_left ?_
        intro k hk
        have hkl : k ∈ l := ((mem_firstOccurAux k l []).mp hk).1
        have hkw : w ≠ k := fun he => hw (he ▸ hkl)
        simp [countOcc_append, countOcc, hkw]
      · simp [countOcc_append, countOcc, countOcc_eq_zero w l hw]

/-- Claim C9, counterexample to the claim as stated: on `"co2 co2"` the
source fallback keeps the digit-bearing token `co2`, while the literal spec
reading (alphabetic tokens only) finds no token and emits the placeholder
list. -/
theorem concepts_counterexample :
    conceptsFallback "co2 co2" = ["co2"] ∧
    conceptsFallbackSpecLiteral "co2 co2" = ["core-topic", "key-idea", "review-focus"] ∧
    conceptsFallback "co2 co2" ≠ conceptsFallbackSpecLiteral "co2 co2" := by
  refine ⟨by decide, by decide, by decide⟩

/-- Claim C9 (amended): on its fallback path, `concept_extraction` returns
exactly the tokens of the text that start with a lowercase letter and
continue with lowercase letters or digits (length at least 3) — not the
purely alphabetic tokens of the literal claim — with the fixed stop-word
set removed, ranked by descending frequency with ties broken by first
occurrence, truncated to the top 12, and replaced by the fixed 3-item
placeholder list when empty. -/
theorem conceptsFallback_matches_spec (text : String) :
    conceptsFallback text = conceptsFallbackSpecAmended text := by
  simp only [conceptsFallback, conceptsFallbackSpecAmended, conceptsSpecOf, mostCommon,
    rankByFreq, counterItems_eq, List.map_take]

/-! ## Claim C1: the rate limiter -/

/-- One pass through the critical section advances the recorded timestamp
by at least `_IMG_MIN_INTERVAL`. -/
theorem limiterRecord_ge (last : ℚ) (s : LimiterStep)
    (_ha : 0 ≤ s.arrival) (ho : 0 ≤ s.overshoot) :
    last + imgMinInterval ≤ limiterRecord last s := by
  simp only [limiterRecord, imgMinInterval]
  split_ifs with h <;> linarith

/-- The recorded timestamps are all at least one interval past the previous
record, and pairwise separated by at least one interval. -/
theorem limiterTimes_sep (steps : List LimiterStep) : ∀ last : ℚ,
    (∀ s ∈ steps, 0 ≤ s.arrival ∧ 0 ≤ s.overshoot) →
    (∀ t ∈ limiterTimes last steps, last + imgMinInterval ≤ t) ∧
      List.Pairwise (fun a b => a + imgMinInterval ≤ b) (limiterTimes last steps) := by
  induction steps with
  | nil =>
    intro last _
    simp [limiterTimes]
  | cons s rest ih =>
    intro last h
    have hs := h s (by simp)
    have hrest : ∀ x ∈ rest, 0 ≤ x.arrival ∧ 0 ≤ x.overshoot :=
      fun x hx => h x (by simp [hx])
    have hrec := limiterRecord_ge last s hs.1 hs.2
    obtain ⟨ihall, ihpw⟩ := ih (limiterRecord last s) hrest
    have hmin : (0 : ℚ) ≤ imgMinInterval := by norm_num [imgMinInterval]
    constructor
    · intro t ht
      rcases List.mem_cons.mp ht with rfl | ht2
      · exact hrec
      · have := ihall t ht2
        linarith
    · rw [limiterTimes, List.pairwise_cons]
      exact ⟨fun t ht => ihall t ht, ihpw⟩

/-- Claim C1: under the shared lock of `_generate_image`, every worker
computes the wait as `_IMG_MIN_INTERVAL` minus the elapsed time since the
last recorded call, sleeps when it is positive, and re-reads the monotonic
clock into `_IMG_LAST_CALL` before releasing the lock; consequently, for
every serialisation of any number of concurrent workers (every list of
nonnegative arrival gaps and sleep overshoots), the recorded outbound-call
timestamps are pairwise at least `_IMG_MIN_INTERVAL` (4 seconds) apart. -/
theorem rateLimiter_min_gap (last : ℚ) (steps : List LimiterStep)
    (h : ∀ s ∈ steps, 0 ≤ s.arrival ∧ 0 ≤ s.overshoot) :
    List.Pairwise (fun a b => a + imgMinInterval ≤ b) (limiterTimes last steps) :=
  (limiterTimes_sep steps last h).2

/-- Witness for C1: three passes (one immediate, one after 1s, one after
10s with a 1s sleep overshoot) record the timestamps 4, 8 and 19, which are
pairwise at least 4 seconds apart. -/
theorem rateLimiter_min_gap_witness :
    limiterTimes 0 [⟨0, 0⟩, ⟨1, 0⟩, ⟨10, 1⟩] = [4, 8, 19] ∧
    List.Pairwise (fun a b => a + imgMinInterval ≤ b)
      (limiterTimes 0 [⟨0, 0⟩, ⟨1, 0⟩, ⟨10, 1⟩]) := by
  constructor
  · norm_num [limiterTimes, limiterRecord, imgMinInterval]
  · refine rateLimiter_min_gap 0 _ ?_
    intro s hs
    rcases List.mem_cons.mp hs with rfl | hs
    · norm_num
    rcases List.mem_cons.mp hs with rfl | hs
    · norm_num
    rcases List.mem_cons.mp hs with rfl | hs
    · norm_num
    · simp at hs

/-! ## Claims C2 and C3: the retrying job runner -/

/-- A run in which every response is transient performs every remaining
attempt, sleeping `base * 2 ** attempt` after each, and returns `None`. -/
theorem genImgLoop_all_transient (r : Nat → HttpOutcome)
    (h : ∀ n, isTransientResp (r n) = true) : ∀ (fuel a : Nat),
    genImgLoop r a fuel = ⟨none, fuel, (List.range fuel).map (fun i => imgBackoff (a + i))⟩ := by
  intro fuel
  induction fuel with
  | zero => intro a; rfl
  | succ fuel ih =>
    intro a
    obtain ⟨st, cd, he, ht⟩ : ∃ st cd, r a = .resp st cd ∧ transientStatus st = true := by
      have hn := h a
      cases hh : r a with
      | resp st cd =>
        rw [hh] at hn
        exact ⟨st, cd, rfl, hn⟩
      | exc =>
        rw [hh] at hn
        simp [isTransientResp] at hn
    simp only [genImgLoop]
    rw [he]
    simp only [ht, if_true]
    rw [ih (a + 1)]
    refine congrArg (ImgRun.mk none (fuel + 1)) ?_
    rw [List.range_succ_eq_map, List.map_cons, List.map_map]
    refine congrArg₂ List.cons (by rw [Nat.add_zero]) ?_
    refine List.map_congr_left ?_
    intro i _
    simp only [Function.comp_apply]
    congr 1
    omega

/-- Any attempt with remaining fuel counts at least one attempt. -/
theorem genImgLoop_attempts_pos (r : Nat → HttpOutcome) (a : Nat) : ∀ fuel : Nat, 0 < fuel →
    1 ≤ (genImgLoop r a fuel).attempts := by
  intro fuel h
  cases fuel with
  | zero => exact absurd h (by simp)
  | succ f =>
    simp only [genImgLoop]
    cases hr : r a with
    | resp st cd =>
      by_cases ht : transientStatus st = true
      · simp [ht]
      · by_cases h200 : st = 200
        · cases cd with
          | nil => simp [ht, h200, transientStatus]
          | cons p ps => simp [ht, h200, transientStatus]
        · simp [ht, h200]
    | exc =>
      by_cases hlt : a < imgMaxRetries - 1
      · simp [hlt]
      · simp [hlt]

/-- Claim C2: a job whose every attempt draws a transient-classified
response makes exactly `_IMG_MAX_RETRIES = 4` attempts, with backoff sleeps
`5, 10, 20, 40` seconds (`5 * 2 ** attempt`; the first three separate the
four attempts), and then returns the empty result; a job whose first
response is any other non-success status returns the empty result
immediately after one attempt, with no retry and no backoff. -/
theorem retryRunner_policy :
    (∀ responses : Nat → HttpOutcome,
      (∀ n, isTransientResp (responses n) = true) →
      generateImage true responses = ⟨none, 4, [5, 10, 20, 40]⟩) ∧
    (∀ (responses : Nat → HttpOutcome) (st : Nat) (cands : List (List (Option InlineImg))),
      responses 0 = .resp st cands → transientStatus st = false → st ≠ 200 →
      generateImage true responses = ⟨none, 1, []⟩) := by
  constructor
  · intro responses h
    rw [show generateImage true responses = genImgLoop responses 0 imgMaxRetries from rfl]
    rw [genImgLoop_all_transient responses h imgMaxRetries 0]
    have hr : List.range imgMaxRetries = [0, 1, 2, 3] := rfl
    rw [hr]
    norm_num [imgMaxRetries, imgBackoff, imgBaseBackoff]
  · intro responses st cands he ht h200
    rw [show generateImage true responses = genImgLoop responses 0 imgMaxRetries from rfl]
    rw [show imgMaxRetries = 3 + 1 from rfl]
    simp only [genImgLoop]
    rw [he]
    simp [ht, h200]

/-- Witness for C2: the policy evaluated at an always-429 job and at a
404-on-first-attempt job. -/
theorem retryRunner_policy_witness :
    generateImage true (fun _ => .resp 429 []) = ⟨none, 4, [5, 10, 20, 40]⟩ ∧
    generateImage true (fun _ => .resp 404 []) = ⟨none, 1, []⟩ :=
  ⟨retryRunner_policy.1 (fun _ => .resp 429 []) (fun _ => rfl),
   retryRunner_policy.2 (fun _ => .resp 404 []) 404 [] rfl (by decide) (by decide)⟩

/-- Claim C3, counterexample to the claim as stated: 504 (gateway timeout)
is a server-side 5xx-class status, yet the code does not classify it as
transient — the job returns permanent failure after a single attempt with
no retry. -/
theorem transient_counterexample :
    transientStatus 504 = false ∧
    generateImage true (fun _ => .resp 504 []) = ⟨none, 1, []⟩ :=
  ⟨by decide, by decide⟩

/-- Claim C3 (amended): the transient classification is exactly the status
set `{429, 500, 502, 503}` — remote rate-limiting plus three specific 5xx
statuses, not the whole 5xx class — and a first response in that set is
retried: at least a second attempt is made after a first backoff sleep of
`5 = base * 2 ** 0` seconds. -/
theorem transient_classification_amended :
    (∀ st : Nat, transientStatus st = true ↔ (st = 429 ∨ st = 500 ∨ st = 502 ∨ st = 503)) ∧
    (∀ (responses : Nat → HttpOutcome) (st : Nat) (cands : List (List (Option InlineImg))),
      responses 0 = .resp st cands → transientStatus st = true →
      2 ≤ (generateImage true responses).attempts ∧
      (generateImage true responses).backoffSleeps.head? = some 5) := by
  constructor
  · intro st
    simp only [transientStatus, Bool.or_eq_true, decide_eq_true_eq]
    tauto
  · intro responses st cands he ht
    rw [show generateImage true responses = genImgLoop responses 0 imgMaxRetries from rfl]
    rw [show imgMaxRetries = 3 + 1 from rfl]
    simp only [genImgLoop]
    rw [he]
    simp only [ht, if_true]
    constructor
    · have h1 := genImgLoop_attempts_pos responses (0 + 1) 3 (by norm_num)
      show 2 ≤ (genImgLoop responses (0 + 1) 3).attempts + 1
      omega
    · show List.head? (imgBackoff 0 :: (genImgLoop responses (0 + 1) 3).backoffSleeps) = some 5
      rw [List.head?_cons]
      norm_num [imgBackoff, imgBaseBackoff]

/-- Witness for C3: the amended classification evaluated at 429. -/
theorem transient_classification_amended_witness :
    transientStatus 429 = true ∧
    2 ≤ (generateImage true (fun _ => .resp 429 [])).attempts ∧
    (generateImage true (fun _ => .resp 429 [])).backoffSleeps.head? = some 5 := by
  have h := transient_classification_amended.2 (fun _ => .resp 429 []) 429 [] rfl (by decide)
  exact ⟨by decide, h.1, h.2⟩

/-! ## Claim C4: engine behaviour on a raising stage -/

/-- Once the engine state is a fault, the remaining stages never run. -/
theorem foldlBind_error {σ ε : Type} (e : ε) : ∀ stages : List (σ → Except ε σ),
    List.foldl (fun acc f => acc.bind f) (Except.error e) stages = Except.error e := by
  intro stages
  induction stages with
  | nil => rfl
  | cons f rest ih => exact ih

/-- On never-raising stages the exceptional engine computes exactly the
total engine. -/
theorem invokeGraphE_lift {σ ε : Type} (pre : List (σ → σ)) : ∀ init : σ,
    invokeGraphE (ε := ε) (pre.map liftStage) init = Except.ok (invokeGraph pre init) := by
  induction pre with
  | nil => intro init; rfl
  | cons f rest ih => intro init; exact ih (f init)

/-- Claim C4, counterexample to the claim as stated: with a single raising
stage followed by a total stage, the run aborts with the fault; it does not
continue to the remaining stage and complete with the state unchanged. -/
theorem engine_fault_counterexample :
    invokeGraphE [fun _ => Except.error 0, liftStage (fun n => n + 1)] (0 : Nat) =
      Except.error 0 ∧
    invokeGraphE [fun _ => Except.error 0, liftStage (fun n => n + 1)] (0 : Nat) ≠
      Except.ok 1 := by
  constructor
  · rfl
  · intro h
    rw [show invokeGraphE [fun _ => Except.error 0, liftStage (fun n => n + 1)] (0 : Nat) =
        Except.error 0 from rfl] at h
    exact Except.noConfusion h

/-- Claim C4 (amended): the source installs no engine-level handler, so an
unexpected stage fault propagates: whenever the stage after a prefix of
total stages raises, the whole run aborts with exactly that fault and no
later stage executes. -/
theorem engine_fault_propagates {σ ε : Type} (pre : List (σ → σ)) (f : σ → Except ε σ)
    (post : List (σ → Except ε σ)) (init : σ) (e : ε)
    (h : f (invokeGraph pre init) = Except.error e) :
    invokeGraphE (pre.map liftStage ++ f :: post) init = Except.error e := by
  have h1 : invokeGraphE (ε := ε) (pre.map liftStage) init =
      Except.ok (invokeGraph pre init) := invokeGraphE_lift pre init
  have h2 : invokeGraphE (pre.map liftStage ++ f :: post) init =
      List.foldl (fun acc g => acc.bind g) (invokeGraphE (pre.map liftStage) init) (f :: post) := by
    simp only [invokeGraphE, List.foldl_append]
  rw [h2, h1]
  show List.foldl (fun acc g => acc.bind g) ((Except.ok (invokeGraph pre init)).bind f) post =
    Except.error e
  have h3 : (Except.ok (invokeGraph pre init)).bind f = Except.error e := h
  rw [h3]
  exact foldlBind_error e post

/-- Witness for C4: a concrete three-stage run whose middle stage raises. -/
theorem engine_fault_propagates_witness :
    invokeGraphE
      (([fun n => n + 1] : List (Nat → Nat)).map liftStage ++
        (fun _ => Except.error 7) :: [liftStage (fun n => n * 2)]) 0 =
      Except.error 7 :=
  engine_fault_propagates [fun n => n + 1] (fun _ => Except.error 7)
    [liftStage (fun n => n * 2)] 0 7 rfl

/-! ## Claims C5, C6, C10: decomposition and the image job scheduler -/

/-- Positional lookup after a positional update. -/
theorem listModify_get? {α : Type} : ∀ (l : List α) (i j : Nat) (f : α → α),
    (listModify l i f).get? j = if j = i then (l.get? j).map f else l.get? j := by
  intro l
  induction l with
  | nil => intro i j f; simp [listModify]
  | cons x xs ih =>
    intro i j f
    cases i with
    | zero =>
      cases j with
      | zero => simp [listModify]
      | succ j => simp [listModify]
    | succ i =>
      cases j with
      | zero => simp [listModify]
      | succ j =>
        simp only [listModify, List.get?_cons_succ]
        rw [ih i j f]
        by_cases hji : j = i <;> simp [hji]

/-- `listModify_get?` in `getElem?` form (the form `simp` normalises to). -/
theorem listModify_getElem? {α : Type} (l : List α) (i j : Nat) (f : α → α) :
    (listModify l i f)[j]? = if j = i then l[j]?.map f else l[j]? := by
  simpa [List.get?_eq_getElem?] using listModify_get? l i j f

/-- Positional update preserves length. -/
theorem listModify_length {α : Type} : ∀ (l : List α) (i : Nat) (f : α → α),
    (listModify l i f).length = l.length := by
  intro l
  induction l with
  | nil => intro i f; rfl
  | cons x xs ih =>
    intro i f
    cases i with
    | zero => simp [listModify]
    | succ i => simp [listModify, ih]

/-- Updating with the identity changes nothing. -/
theorem listModify_id {α : Type} : ∀ (l : List α) (i : Nat),
    listModify l i (fun a => a) = l := by
  intro l
  induction l with
  | nil => intro i; rfl
  | cons x xs ih =>
    intro i
    cases i with
    | zero => rfl
    | succ i => simp [listModify, ih]

/-- Two updates at the same position compose. -/
theorem listModify_comp {α : Type} : ∀ (l : List α) (i : Nat) (f g : α → α),
    listModify (listModify l i f) i g = listModify l i (fun a => g (f a)) := by
  intro l
  induction l with
  | nil => intro i f g; rfl
  | cons x xs ih =>
    intro i f g
    cases i with
    | zero => rfl
    | succ i => simp [listModify, ih]

/-- `listModify_id` specialised through structure eta. -/
theorem listModify_eta (bs : List Beat) (bi : Nat) :
    listModify bs bi (fun b => { b with image_steps := b.image_steps }) = bs :=
  listModify_id bs bi

/-- The merge of one job expressed as a positional update. -/
theorem mergeResult_eq (bs : List Beat) (bi si : Nat) (img : Option String) :
    mergeResult bs bi si img =
      listModify bs bi (fun b => { b with image_steps := mergeStepList b.image_steps si img }) := by
  cases img with
  | none => exact (listModify_eta bs bi).symm
  | some d =>
    by_cases hd : d = ""
    · subst hd
      show bs = _
      simp only [mergeStepList, ne_eq, if_neg (by decide : ¬ ("" : String) ≠ "")]
      exact (listModify_eta bs bi).symm
    · simp only [mergeResult, mergeStepList, if_pos hd]

/-- The merge of one job preserves the number of beats. -/
theorem mergeResult_length (bs : List Beat) (bi si : Nat) (img : Option String) :
    (mergeResult bs bi si img).length = bs.length := by
  rw [mergeResult_eq, listModify_length]

/-- Folding completion events preserves the number of beats. -/
theorem runEvents_length (o : Nat → Nat → String → Option String) :
    ∀ (evs : List Job) (bs : List Beat), (runEvents bs evs o).length = bs.length := by
  intro evs
  induction evs with
  | nil => intro bs; rfl
  | cons j rest ih =>
    intro bs
    rw [show runEvents bs (j :: rest) o =
        runEvents (mergeResult bs j.1 j.2.1 (o j.1 j.2.1 j.2.2)) rest o from rfl]
    rw [ih, mergeResult_length]

/-- The events of one beat's steps only rewrite that beat, by the
accumulated `stepsApply` update. -/
theorem runEvents_stepJobs (o : Nat → Nat → String → Option String) (bi : Nat) :
    ∀ (src : List ImageStep) (si0 : Nat) (bs : List Beat),
    runEvents bs (stepJobs bi src si0) o =
      listModify bs bi (fun b => { b with image_steps := stepsApply o bi b.image_steps src si0 }) := by
  intro src
  induction src with
  | nil =>
    intro si0 bs
    exact (listModify_eta bs bi).symm
  | cons s rest ih =>
    intro si0 bs
    by_cases hp : s.prompt = ""
    · rw [show stepJobs bi (s :: rest) si0 = stepJobs bi rest (si0 + 1) from by
        simp [stepJobs, hp]]
      rw [ih (si0 + 1) bs]
      congr 1
      funext b
      simp [stepsApply, hp]
    · rw [show stepJobs bi (s :: rest) si0 = (bi, si0, s.prompt) :: stepJobs bi rest (si0 + 1) from by
        simp [stepJobs, hp]]
      rw [show runEvents bs ((bi, si0, s.prompt) :: stepJobs bi rest (si0 + 1)) o =
          runEvents (mergeResult bs bi si0 (o bi si0 s.prompt)) (stepJobs bi rest (si0 + 1)) o
        from rfl]
      rw [ih (si0 + 1) _, mergeResult_eq, listModify_comp]
      congr 1
      funext b
      simp [stepsApply, hp]

/-- All events, beat by beat. -/
theorem runEvents_beatJobs (o : Nat → Nat → String → Option String) :
    ∀ (src : List Beat) (off : Nat) (bs : List Beat),
    runEvents bs (beatJobs src off) o = beatsApply o bs src off := by
  intro src
  induction src with
  | nil => intro off bs; rfl
  | cons b rest ih =>
    intro off bs
    rw [show beatJobs (b :: rest) off = stepJobs off b.image_steps 0 ++ beatJobs rest (off + 1)
      from rfl]
    rw [show runEvents bs (stepJobs off b.image_steps 0 ++ beatJobs rest (off + 1)) o =
        runEvents (runEvents bs (stepJobs off b.image_steps 0) o) (beatJobs rest (off + 1)) o
      from by simp [runEvents, List.foldl_append]]
    rw [runEvents_stepJobs o off b.image_steps 0 bs, ih (off + 1) _]
    rfl

/-- One merged outcome, per step slot. -/
theorem mergeStepList_get? (cur : List ImageStep) (si j : Nat) (img : Option String) :
    (mergeStepList cur si img).get? j =
      if j = si then (cur.get? j).map (fun s => mergeOne s img) else cur.get? j := by
  cases img with
  | none =>
    show cur.get? j = _
    by_cases hj : j = si <;> simp [hj, mergeOne]
  | some d =>
    by_cases hd : d = ""
    · subst hd
      show (mergeStepList cur si (some "")).get? j = _
      simp only [mergeStepList, ne_eq, if_neg (by decide : ¬ ("" : String) ≠ "")]
      by_cases hj : j = si <;> simp [hj, mergeOne]
    · simp only [mergeStepList, if_pos hd, listModify_get?]
      by_cases hj : j = si <;> simp [hj, mergeOne, hd]

/-- `mergeStepList_get?` in `getElem?` form. -/
theorem mergeStepList_getElem? (cur : List ImageStep) (si j : Nat) (img : Option String) :
    (mergeStepList cur si img)[j]? =
      if j = si then cur[j]?.map (fun s => mergeOne s img) else cur[j]? := by
  simpa [List.get?_eq_getElem?] using mergeStepList_get? cur si j img

/-- The accumulated step update, per step slot. -/
theorem stepsApply_get? (o : Nat → Nat → String → Option String) (bi : Nat) :
    ∀ (src : List ImageStep) (si0 : Nat) (cur : List ImageStep) (si : Nat),
    (stepsApply o bi cur src si0).get? si =
      if si < si0 then cur.get? si
      else
        match src.get? (si - si0) with
        | some st =>
          if st.prompt = "" then cur.get? si
          else (cur.get? si).map (fun s => mergeOne s (o bi si st.prompt))
        | none => cur.get? si := by
  intro src
  induction src with
  | nil =>
    intro si0 cur si
    by_cases h : si < si0 <;> simp [stepsApply, h]
  | cons st0 rest ih =>
    intro si0 cur si
    rcases Nat.lt_trichotomy si si0 with hlt | heq | hgt
    · have h1 : si < si0 + 1 := by omega
      have hne : ¬ si = si0 := by omega
      simp only [stepsApply]
      rw [ih (si0 + 1) _ si, if_pos h1, if_pos hlt]
      by_cases hp : st0.prompt = "" <;> simp [hp, mergeStepList_getElem?, hne]
    · subst heq
      have h1 : si < si + 1 := by omega
      simp only [stepsApply]
      rw [ih (si + 1) _ si, if_pos h1, if_neg (by omega : ¬ si < si)]
      simp only [Nat.sub_self, List.get?_cons_zero]
      by_cases hp : st0.prompt = "" <;> simp [hp, mergeStepList_getElem?]
    · have h1 : ¬ si < si0 + 1 := by omega
      have h2 : ¬ si < si0 := by omega
      have hne : ¬ si = si0 := by omega
      simp only [stepsApply]
      rw [ih (si0 + 1) _ si, if_neg h1, if_neg h2]
      have hidx : si - si0 = (si - (si0 + 1)) + 1 := by omega
      rw [hidx, List.get?_cons_succ]
      by_cases hp : st0.prompt = ""
      · simp [hp]
      · cases hrest : rest.get? (si - (si0 + 1)) with
        | none => simp [hp, mergeStepList_getElem?, hne]
        | some st =>
          by_cases hp2 : st.prompt = "" <;> simp [hp, hp2, mergeStepList_getElem?, hne]

/-- The accumulated step update preserves the number of steps. -/
theorem mergeStepList_length (cur : List ImageStep) (si : Nat) (img : Option String) :
    (mergeStepList cur si img).length = cur.length := by
  cases img with
  | none => rfl
  | some d =>
    by_cases hd : d = "" <;> simp [mergeStepList, hd, listModify_length]

/-- `stepsApply` preserves the number of steps. -/
theorem stepsApply_length (o : Nat → Nat → String → Option String) (bi : Nat) :
    ∀ (src : List ImageStep) (si0 : Nat) (cur : List ImageStep),
    (stepsApply o bi cur src si0).length = cur.length := by
  intro src
  induction src with
  | nil => intro si0 cur; rfl
  | cons s rest ih =>
    intro si0 cur
    by_cases hp : s.prompt = "" <;> simp [stepsApply, hp, ih, mergeStepList_length]

/-- The accumulated beat update, per beat slot. -/
theorem beatsApply_get? (o : Nat → Nat → String → Option String) :
    ∀ (src : List Beat) (off : Nat) (bs : List Beat) (bi : Nat),
    (beatsApply o bs src off).get? bi =
      if bi < off then bs.get? bi
      else
        match src.get? (bi - off) with
        | some sb =>
          (bs.get? bi).map (fun cur =>
            { cur with image_steps := stepsApply o bi cur.image_steps sb.image_steps 0 })
        | none => bs.get? bi := by
  intro src
  induction src with
  | nil =>
    intro off bs bi
    by_cases h : bi < off <;> simp [beatsApply, h]
  | cons b rest ih =>
    intro off bs bi
    simp only [beatsApply]
    rw [ih (off + 1) _ bi]
    rcases Nat.lt_trichotomy bi off with hlt | heq | hgt
    · have h1 : bi < off + 1 := by omega
      have hne : ¬ bi = off := by omega
      rw [if_pos h1, if_pos hlt, listModify_get?, if_neg hne]
    · subst heq
      rw [if_pos (by omega : bi < bi + 1), listModify_get?, if_pos rfl,
        if_neg (by omega : ¬ bi < bi)]
      simp only [Nat.sub_self, List.get?_cons_zero]
    · have h1 : ¬ bi < off + 1 := by omega
      have h2 : ¬ bi < off := by omega
      have hne : ¬ bi = off := by omega
      rw [if_neg h1, if_neg h2]
      have hidx : bi - off = (bi - (off + 1)) + 1 := by omega
      rw [hidx, List.get?_cons_succ]
      cases hrest : rest.get? (bi - (off + 1)) with
      | none => simp [listModify_getElem?, hne]
      | some sb => simp [listModify_getElem?, hne]

/-- The whole scheduler run, per beat: every beat is rewritten by its own
step events (the prompts of its own steps), and nothing else. -/
theorem runScheduler_get? (beats : List Beat) (o : Nat → Nat → String → Option String)
    (bi : Nat) :
    (runScheduler beats o).get? bi =
      (beats.get? bi).map (fun b =>
        { b with image_steps := stepsApply o bi b.image_steps b.image_steps 0 }) := by
  rw [runScheduler, buildJobs, runEvents_beatJobs, beatsApply_get?]
  rw [if_neg (by omega : ¬ bi < 0)]
  simp only [Nat.sub_zero]
  cases h : beats.get? bi with
  | none => simp
  | some b => simp

/-- Every step produced by the decomposition normalisation starts with an
empty image payload. -/
theorem normalizeSteps_image_data (raw : List RawImageStep) :
    ∀ st ∈ normalizeSteps raw, st.image_data = "" := by
  intro st hst
  simp only [normalizeSteps] at hst
  rcases List.mem_append.mp hst with h | h
  · obtain ⟨r, _, rfl⟩ := List.mem_map.mp h
    rfl
  · rw [List.eq_of_mem_replicate h]
    rfl

/-- The decomposition normalisation always emits exactly 3 steps. -/
theorem normalizeSteps_length (raw : List RawImageStep) :
    (normalizeSteps raw).length = 3 := by
  simp only [normalizeSteps, List.length_append, List.length_map, List.length_replicate]
  have h : (raw.take 3).length ≤ 3 := by
    simp [List.length_take]
  omega

/-- Claim C6: the scheduler builds one job per image step with a nonempty
prompt and merges every terminal outcome into its own `(beat, step)` slot.
For every gateway decomposition and every assignment of job outcomes, the
final content of each slot is: the empty payload for empty-prompt
placeholder steps (never submitted) and for jobs that failed permanently or
returned no usable payload, and exactly the returned data URL for jobs that
succeeded — independent of every other job's fate, all other step fields
unchanged. -/
theorem scheduler_slot_effect (raw : List RawBeat) (o : Nat → Nat → String → Option String)
    (bi si : Nat) :
    getSlot (runScheduler (normalizeBeats raw) o) bi si =
      (getSlot (normalizeBeats raw) bi si).map (fun st =>
        { st with image_data := if st.prompt = "" then "" else (o bi si st.prompt).getD "" }) := by
  rw [getSlot, getSlot, runScheduler_get?]
  cases hb : (normalizeBeats raw).get? bi with
  | none => simp
  | some b =>
    have hdata : ∀ st ∈ b.image_steps, st.image_data = "" := by
      have hbm : b ∈ normalizeBeats raw := List.get?_mem hb
      simp only [normalizeBeats] at hbm
      obtain ⟨rb, _, rfl⟩ := List.mem_map.mp hbm
      exact normalizeSteps_image_data rb.image_steps
    simp only [Option.map_some']
    show (stepsApply o bi b.image_steps b.image_steps 0).get? si = _
    rw [stepsApply_get?, if_neg (by omega : ¬ si < 0)]
    simp only [Nat.sub_zero]
    cases hs : b.image_steps.get? si with
    | none => simp
    | some st =>
      have hd : st.image_data = "" := hdata st (List.get?_mem hs)
      obtain ⟨slab, spr, sdat⟩ := st
      simp only at hd
      subst hd
      by_cases hp : spr = ""
      · simp [hp]
      · cases ho : o bi si spr with
        | none => simp [hp, mergeOne, ho]
        | some d =>
          by_cases hdd : d = ""
          · subst hdd
            simp [hp, mergeOne, ho]
          · simp [hp, mergeOne, ho, hdd]

/-- Claim C5: every beat of the decomposition has exactly 3 image steps —
normalisation truncates extra raw steps to 3 and pads short (or absent)
step lists with empty placeholders — and every beat of the stage's final
`story_beats` value (after the scheduler has merged all image results)
still has exactly 3 steps. -/
theorem beats_three_steps :
    (∀ rb : RawBeat, (normalizeBeat rb).image_steps =
        (rb.image_steps.take 3).map mkImageStep ++
          List.replicate (3 - ((rb.image_steps.take 3).map mkImageStep).length) emptyImageStep) ∧
    (∀ (stx : String) (br : Option (List RawBeat)) (o : Nat → Nat → String → Option String)
        (b : Beat), b ∈ storyVisualsBeats stx br o → b.image_steps.length = 3) := by
  constructor
  · intro rb
    rfl
  · intro stx br o b hb
    rw [storyVisualsBeats.eq_def] at hb
    by_cases hst : stx = ""
    · rw [if_pos hst] at hb
      simp at hb
    · rw [if_neg hst] at hb
      cases br with
      | none => simp at hb
      | some raw =>
        cases raw with
        | nil => simp at hb
        | cons r rs =>
          obtain ⟨bi, hbi⟩ := List.get?_of_mem hb
          rw [runScheduler_get?] at hbi
          cases hob : (normalizeBeats (r :: rs)).get? bi with
          | none =>
            rw [hob] at hbi
            simp at hbi
          | some ob =>
            rw [hob] at hbi
            simp only [Option.map_some'] at hbi
            have hb2 : b = { ob with image_steps := stepsApply o bi ob.image_steps ob.image_steps 0 } :=
              (Option.some.inj hbi).symm
            rw [hb2]
            show (stepsApply o bi ob.image_steps ob.image_steps 0).length = 3
            rw [stepsApply_length]
            have hobm : ob ∈ normalizeBeats (r :: rs) := List.get?_mem hob
            simp only [normalizeBeats] at hobm
            obtain ⟨rb, _, rfl⟩ := List.mem_map.mp hobm
            exact normalizeSteps_length rb.image_steps

/-- Witness for C5: a concrete decomposed beat (one raw step, truncated and
padded, run through the scheduler) has exactly 3 image steps. -/
theorem beats_three_steps_witness :
    (⟨"b", "n", false, [], [⟨"s1", "p1", ""⟩, ⟨"", "", ""⟩, ⟨"", "", ""⟩]⟩ : Beat).image_steps.length = 3 :=
  beats_three_steps.2 "story" (some [⟨"b", "n", false, [], [⟨"s1", "p1"⟩]⟩])
    (fun _ _ _ => none) _ (by decide)

/-- Claim C10: the stage keeps at most 6 beats — `beats_raw[:6]` drops
every beat beyond the first 6 of the gateway reply — so the final
`story_beats` value never has more than 6 entries. -/
theorem beats_at_most_six :
    (∀ (stx : String) (br : Option (List RawBeat)) (o : Nat → Nat → String → Option String),
      (storyVisualsBeats stx br o).length ≤ 6) ∧
    (∀ raw : List RawBeat, normalizeBeats raw = (raw.take 6).map normalizeBeat) := by
  constructor
  · intro stx br o
    rw [storyVisualsBeats.eq_def]
    by_cases hst : stx = ""
    · simp [hst]
    · rw [if_neg hst]
      cases br with
      | none => simp
      | some raw =>
        cases raw with
        | nil => simp
        | cons r rs =>
          show (runScheduler (normalizeBeats (r :: rs)) o).length ≤ 6
          rw [runScheduler, runEvents_length, normalizeBeats, List.length_map,
            List.length_take]
          omega
  · intro raw
    rfl

/-! ## Claim C7: streaming and blocking runs agree

The two initial states differ only in `story_beats` (present and `[]` in
`run_pipeline`, absent in `run_pipeline_with_trace`).  None of the ten
stages reads that field, and the last stage overwrites it; the commute
lemmas below make this pointwise. -/

/-- `store_raw_files` ignores `story_beats`. -/
theorem store_raw_files_sb (s : PipeState) (v : Option (List Beat)) :
    store_raw_files { s with story_beats := v } =
      { store_raw_files s with story_beats := v } := rfl

/-- `extract_text` ignores `story_beats`. -/
theorem extract_text_sb (s : PipeState) (v : Option (List Beat)) :
    extract_text { s with story_beats := v } =
      { extract_text s with story_beats := v } := by
  cases s
  simp only [extract_text]
  repeat' split
  all_goals rfl

/-- `clean_text` ignores `story_beats`. -/
theorem clean_text_sb (nt : String → String) (s : PipeState) (v : Option (List Beat)) :
    clean_text nt { s with story_beats := v } =
      { clean_text nt s with story_beats := v } := rfl

/-- `chunk_text` ignores `story_beats`. -/
theorem chunk_text_sb (s : PipeState) (v : Option (List Beat)) :
    chunk_text { s with story_beats := v } =
      { chunk_text s with story_beats := v } := rfl

/-- `concept_extraction` ignores `story_beats`. -/
theorem concept_extraction_sb (g : ConceptsReply) (s : PipeState) (v : Option (List Beat)) :
    concept_extraction g { s with story_beats := v } =
      { concept_extraction g s with story_beats := v } := by
  cases s
  simp only [concept_extraction]
  repeat' split
  all_goals rfl

/-- `normalize_concepts` ignores `story_beats`. -/
theorem normalize_concepts_sb (s : PipeState) (v : Option (List Beat)) :
    normalize_concepts { s with story_beats := v } =
      { normalize_concepts s with story_beats := v } := rfl

/-- `estimate_priority` ignores `story_beats`. -/
theorem estimate_priority_sb (s : PipeState) (v : Option (List Beat)) :
    estimate_priority { s with story_beats := v } =
      { estimate_priority s with story_beats := v } := rfl

/-- `select_scenario_seed` ignores `story_beats`. -/
theorem select_scenario_seed_sb (s : PipeState) (v : Option (List Beat)) :
    select_scenario_seed { s with story_beats := v } =
      { select_scenario_seed s with story_beats := v } := rfl

/-- `generate_learning_event` ignores `story_beats`. -/
theorem generate_learning_event_sb (g : EventReply) (s : PipeState) (v : Option (List Beat)) :
    generate_learning_event g { s with story_beats := v } =
      { generate_learning_event g s with story_beats := v } := by
  cases s
  simp only [generate_learning_event]
  repeat' split
  all_goals rfl

/-- `generate_story_visuals` never reads the incoming `story_beats` and
always overwrites it. -/
theorem generate_story_visuals_sb (g : BeatsReply) (o : Nat → Nat → String → Option String)
    (s : PipeState) (v : Option (List Beat)) :
    generate_story_visuals g o { s with story_beats := v } =
      generate_story_visuals g o s := rfl

/-- Claim C7: for every input (raw file list and optional pre-extracted
text) and every behaviour of the external collaborators, the state returned
by `run_pipeline_with_trace` equals the state returned by `run_pipeline`.
The trace is observational by construction: `run_pipeline_with_trace`
computes its returned state with a fresh `invoke` that the trace never
feeds into, and the only difference between the two runs — the missing
`story_beats` key of the streaming variant's initial state — is never read
by any stage and is overwritten by the last one. -/
theorem streaming_blocking_agree (p : RunParams) (raw_files : List String)
    (extracted_text : String) :
    (run_pipeline_with_trace p raw_files extracted_text).1 =
      run_pipeline p raw_files extracted_text := by
  show invokeGraph (pipelineStages p) (traceInit raw_files extracted_text) =
    invokeGraph (pipelineStages p) (runPipelineInit raw_files extracted_text)
  rw [show runPipelineInit raw_files extracted_text =
      { traceInit raw_files extracted_text with story_beats := some [] } from rfl]
  simp only [invokeGraph, pipelineStages, List.foldl_cons, List.foldl_nil]
  conv_rhs => rw [store_raw_files_sb, extract_text_sb, clean_text_sb, chunk_text_sb,
    concept_extraction_sb, normalize_concepts_sb, estimate_priority_sb,
    select_scenario_seed_sb, generate_learning_event_sb, generate_story_visuals_sb]

end PipelineGraph
